import Mathlib

/-!
Shallow embedding of the redish LSM-tree storage engine (the modules under
`src/tree/`: `mod.rs`, `sstable.rs`, `wal.rs`, `wal_writer.rs`, `cache.rs`,
`data_value.rs`, `transaction.rs`, `transaction_manager.rs`) together with
theorems settling the frozen claims C1..C10 about it.

Modelling conventions:
* bytes are `Nat`s below 256; `Vec<u8>` is `List Nat`;
* `SystemTime` is a `Nat` tick count threaded through operations as `now`
  (the code calls `SystemTime::now()`; the embedding receives the clock value);
* `BTreeMap<Vec<u8>, V>` is a list of pairs kept sorted by the lexicographic
  key order (`kmInsert` keeps it sorted, mirroring the ordered map), and
  `HashMap` / `HashSet` are plain association lists (`hInsert`);
* machine integers are `Nat` with explicit `% 2 ^ 32` where u32 wrap matters;
* fallible operations return `Except TreeError _`; filesystem success or
  failure of a WAL append is an explicit `walOk : Bool` oracle argument;
* the serialization codec (`bincode`) is kept abstract: encoding functions are
  passed as parameters, exactly as the code treats `bincode_config` as data.
-/

namespace Redish

abbrev Byte := Nat
abbrev Key := List Byte

/-- Lexicographic comparison of byte strings: the `Ord` instance of
`Vec<u8>` used by `BTreeMap` and by `find_key_in_index`'s binary search. -/
def keyCmp : Key → Key → Ordering
  | [], [] => .eq
  | [], _ :: _ => .lt
  | _ :: _, [] => .gt
  | a :: as, b :: bs =>
    match compare a b with
    | .eq => keyCmp as bs
    | o => o

theorem keyCmp_eq_iff : ∀ a b : Key, keyCmp a b = .eq ↔ a = b := by
  intro a
  induction a with
  | nil => intro b; cases b <;> simp [keyCmp]
  | cons x xs ih =>
    intro b
    cases b with
    | nil => simp [keyCmp]
    | cons y ys =>
      simp only [keyCmp]
      rcases h : compare x y with hlt | heq | hgt
      · simp only [List.cons.injEq]
        constructor
        · intro hc; cases hc
        · rintro ⟨h1, _⟩
          rw [h1, Nat.compare_eq_eq.mpr rfl] at h
          cases h
      · have hxy : x = y := Nat.compare_eq_eq.mp h
        simp [hxy, ih ys]
      · simp only [List.cons.injEq]
        constructor
        · intro hc; cases hc
        · rintro ⟨h1, _⟩
          rw [h1, Nat.compare_eq_eq.mpr rfl] at h
          cases h

theorem keyCmp_self (a : Key) : keyCmp a a = .eq := (keyCmp_eq_iff a a).mpr rfl

/-! ### Ordered map (`BTreeMap<Vec<u8>, V>`) -/

abbrev KMap (α : Type) := List (Key × α)

def kmLookup {α : Type} (m : KMap α) (k : Key) : Option α :=
  match m with
  | [] => none
  | (k', v) :: rest => if k' = k then some v else kmLookup rest k

/-- `BTreeMap::insert`: replace the value when the key is present, otherwise
insert at the sorted position. -/
def kmInsert {α : Type} (m : KMap α) (k : Key) (v : α) : KMap α :=
  match m with
  | [] => [(k, v)]
  | (k', v') :: rest =>
    match keyCmp k k' with
    | .lt => (k, v) :: (k', v') :: rest
    | .eq => (k, v) :: rest
    | .gt => (k', v') :: kmInsert rest k v

/-- `BTreeMap::remove` (the mapping is dropped; the removed value, when the
caller uses it, is recovered with `kmLookup` first). -/
def kmErase {α : Type} (m : KMap α) (k : Key) : KMap α :=
  match m with
  | [] => []
  | (k', v') :: rest => if k' = k then rest else (k', v') :: kmErase rest k

def kmSize {α : Type} (m : KMap α) : Nat := m.length

@[simp] theorem kmLookup_insert_self {α : Type} (m : KMap α) (k : Key) (v : α) :
    kmLookup (kmInsert m k v) k = some v := by
  induction m with
  | nil => simp [kmInsert, kmLookup]
  | cons p rest ih =>
    obtain ⟨k', v'⟩ := p
    simp only [kmInsert]
    rcases h : keyCmp k k' with hlt | heq | hgt
    · simp [kmLookup]
    · simp [kmLookup]
    · have : k' ≠ k := by
        intro hk
        rw [hk, keyCmp_self] at h
        cases h
      simp [kmLookup, this, ih]

theorem kmLookup_insert_ne {α : Type} (m : KMap α) (k k' : Key) (v : α)
    (h : k ≠ k') : kmLookup (kmInsert m k v) k' = kmLookup m k' := by
  induction m with
  | nil => simp [kmInsert, kmLookup, h]
  | cons p rest ih =>
    obtain ⟨k₁, v₁⟩ := p
    simp only [kmInsert]
    rcases hc : keyCmp k k₁ with hlt | heq | hgt
    · simp [kmLookup, h]
    · have : k = k₁ := (keyCmp_eq_iff k k₁).mp hc
      subst this
      simp [kmLookup, h]
    · by_cases hk : k₁ = k'
      · simp [kmLookup, hk]
      · simp [kmLookup, hk, ih]

theorem kmSize_insert_fresh {α : Type} (m : KMap α) (k : Key) (v : α)
    (h : kmLookup m k = none) : kmSize (kmInsert m k v) = kmSize m + 1 := by
  induction m with
  | nil => simp [kmInsert, kmSize]
  | cons p rest ih =>
    obtain ⟨k', v'⟩ := p
    simp only [kmInsert]
    rcases hc : keyCmp k k' with hlt | heq | hgt
    · simp [kmSize]
    · have : k = k' := (keyCmp_eq_iff k k').mp hc
      subst this
      simp [kmLookup] at h
    · have hne : k' ≠ k := by
        intro hk
        rw [hk, keyCmp_self] at hc
        cases hc
      simp only [kmLookup, if_neg hne] at h
      simp [kmSize] at ih ⊢
      exact ih h

theorem kmMem_insert {α : Type} (m : KMap α) (k : Key) (v : α) :
    ∀ p ∈ kmInsert m k v, p = (k, v) ∨ p ∈ m := by
  induction m with
  | nil => simp [kmInsert]
  | cons q rest ih =>
    obtain ⟨k', v'⟩ := q
    simp only [kmInsert]
    rcases hc : keyCmp k k' with hlt | heq | hgt <;> intro p hp <;>
      simp only [List.mem_cons] at hp ⊢
    · tauto
    · tauto
    · rcases hp with h | h
      · tauto
      · rcases ih p h with h1 | h1 <;> tauto

theorem kmLookup_mem {α : Type} (m : KMap α) (k : Key) (v : α)
    (h : kmLookup m k = some v) : (k, v) ∈ m := by
  induction m with
  | nil => simp [kmLookup] at h
  | cons p rest ih =>
    obtain ⟨k', v'⟩ := p
    simp only [kmLookup] at h
    by_cases hk : k' = k
    · subst hk
      simp at h
      simp [h]
    · simp [hk] at h
      exact List.mem_cons_of_mem _ (ih h)

/-! ### Association-list map (`HashMap`) -/

def hLookup {κ α : Type} [DecidableEq κ] (m : List (κ × α)) (k : κ) : Option α :=
  match m with
  | [] => none
  | (k', v) :: rest => if k' = k then some v else hLookup rest k

def hInsert {κ α : Type} [DecidableEq κ] (m : List (κ × α)) (k : κ) (v : α) :
    List (κ × α) :=
  match m with
  | [] => [(k, v)]
  | (k', v') :: rest =>
    if k' = k then (k, v) :: rest else (k', v') :: hInsert rest k v

def hErase {κ α : Type} [DecidableEq κ] (m : List (κ × α)) (k : κ) :
    List (κ × α) :=
  match m with
  | [] => []
  | (k', v') :: rest => if k' = k then rest else (k', v') :: hErase rest k

@[simp] theorem hLookup_insert_self {κ α : Type} [DecidableEq κ]
    (m : List (κ × α)) (k : κ) (v : α) : hLookup (hInsert m k v) k = some v := by
  induction m with
  | nil => simp [hInsert, hLookup]
  | cons p rest ih =>
    obtain ⟨k', v'⟩ := p
    simp only [hInsert]
    by_cases h : k' = k
    · simp [h, hLookup]
    · simp [h, hLookup, ih]

theorem hLookup_insert_ne {κ α : Type} [DecidableEq κ]
    (m : List (κ × α)) (k k' : κ) (v : α) (h : k ≠ k') :
    hLookup (hInsert m k v) k' = hLookup m k' := by
  induction m with
  | nil => simp [hInsert, hLookup, h]
  | cons p rest ih =>
    obtain ⟨k₁, v₁⟩ := p
    simp only [hInsert]
    by_cases h1 : k₁ = k
    · subst h1
      simp [hLookup, h]
    · by_cases h2 : k₁ = k'
      · subst h2
        simp [hInsert, hLookup, Ne.symm h]
      · simp [hLookup, h1, h2, ih]

theorem hLookup_eq_none {κ α : Type} [DecidableEq κ]
    (m : List (κ × α)) (k : κ) (h : k ∉ m.map Prod.fst) : hLookup m k = none := by
  induction m with
  | nil => rfl
  | cons p rest ih =>
    obtain ⟨k', v'⟩ := p
    simp only [List.map_cons, List.mem_cons] at h
    push_neg at h
    simp [hLookup, Ne.symm h.1, ih h.2]

theorem hLookup_erase_self {κ α : Type} [DecidableEq κ]
    (m : List (κ × α)) (k : κ)
    (hnd : (m.map Prod.fst).Nodup) : hLookup (hErase m k) k = none := by
  induction m with
  | nil => simp [hErase, hLookup]
  | cons p rest ih =>
    obtain ⟨k', v'⟩ := p
    simp only [List.map_cons, List.nodup_cons] at hnd
    simp only [hErase]
    by_cases h : k' = k
    · subst h
      rw [if_pos rfl]
      exact hLookup_eq_none rest k' hnd.1
    · simp [hLookup, h, ih hnd.2]

/-! ### `DataValue` (`data_value.rs`) -/

/-- The value record stored at every layer (`data_value.rs`). -/
structure DataValue where
  data : List Byte
  expires_at : Option Nat
  created_at : Nat
  is_tombstone : Bool
  transaction_id : Option Nat
  deriving Repr, DecidableEq

/-- `DataValue::new`: capture `created_at = now` and derive `expires_at` from
the optional TTL. -/
def DataValue.new (now : Nat) (data : List Byte) (ttl : Option Nat) : DataValue :=
  { data := data
    expires_at := ttl.map (fun d => now + d)
    created_at := now
    is_tombstone := false
    transaction_id := none }

/-- `DataValue::tombstone`. -/
def DataValue.tombstone (now : Nat) : DataValue :=
  { data := []
    expires_at := none
    created_at := now
    is_tombstone := true
    transaction_id := none }

/-- `DataValue::checkpoint`. -/
def DataValue.checkpoint (now : Nat) : DataValue :=
  { data := []
    expires_at := none
    created_at := now
    is_tombstone := false
    transaction_id := none }

/-- `DataValue::is_expired`: `SystemTime::now() > expiry` when an expiry is
set. -/
def DataValue.isExpired (v : DataValue) (now : Nat) : Bool :=
  match v.expires_at with
  | some expiry => decide (now > expiry)
  | none => false

/-- `DataValue::is_empty`. -/
def DataValue.isEmptyData (v : DataValue) : Bool := v.data.isEmpty

/-- Error kinds of `tree_error.rs` (messages elided). -/
inductive TreeError where
  | io
  | serialization
  | compression
  | wal
  | corruption
  | configuration
  | transaction
  | internal
  deriving Repr, DecidableEq

/-! ### CRC32 (IEEE, reflected — the `crc32fast::Hasher` algorithm) -/

/-- One bit-step of the reflected CRC-32 with polynomial `0xEDB88320`. -/
def crc32Step (crc : Nat) : Nat :=
  if crc % 2 = 1 then Nat.xor (crc / 2) 0xEDB88320 else crc / 2

/-- Fold one input byte into the running CRC state. -/
def crc32Update (crc b : Nat) : Nat :=
  (List.range 8).foldl (fun acc _ => crc32Step acc) (Nat.xor crc (b % 256))

/-- `crc32fast`: IEEE CRC-32 over a byte sequence. -/
def crc32 (bytes : List Byte) : Nat :=
  Nat.xor (bytes.foldl crc32Update 0xFFFFFFFF) 0xFFFFFFFF

set_option maxRecDepth 20000 in
/-- Sanity anchor: the standard CRC-32 check value over the ASCII bytes of
`"123456789"` is `0xCBF43926`. -/
theorem crc32_check_value :
    crc32 [49, 50, 51, 52, 53, 54, 55, 56, 57] = 0xCBF43926 := by decide

/-! ### Sorted-run data entries (`sstable.rs`) -/

/-- `u32::to_le_bytes`. -/
def le32 (n : Nat) : List Byte :=
  [n % 256, n / 256 % 256, n / 65536 % 256, n / 16777216 % 256]

/-- `u32::from_le_bytes` over a 4-byte list. -/
def fromLe32 (b : List Byte) : Nat :=
  match b with
  | [b0, b1, b2, b3] => b0 % 256 + 256 * (b1 % 256) + 65536 * (b2 % 256) + 16777216 * (b3 % 256)
  | _ => 0

theorem fromLe32_le32 (n : Nat) (h : n < 2 ^ 32) : fromLe32 (le32 n) = n := by
  simp only [le32, fromLe32]
  omega

/-- `read_exact` into a buffer of `n` bytes: fails when fewer than `n` bytes
remain. Returns the bytes read and the rest of the stream. -/
def readExact (n : Nat) (l : List Byte) : Option (List Byte × List Byte) :=
  if n ≤ l.length then some (l.take n, l.drop n) else none

theorem readExact_append (a b : List Byte) :
    readExact a.length (a ++ b) = some (a, b) := by
  simp [readExact]

/-- `Tree::write_data_entry` (`sstable.rs`): the byte image of one data block,
`[key_len u32 LE][key][value_len u32 LE][value bytes][crc32(key ‖ value bytes) u32 LE]`,
where the value bytes come from the serialization codec `encode`. -/
def write_data_entry (encode : DataValue → List Byte) (key : Key) (value : DataValue) :
    List Byte :=
  let value_bytes := encode value
  le32 key.length ++ key ++ le32 value_bytes.length ++ value_bytes ++
    le32 (crc32 (key ++ value_bytes))

/-- `Tree::read_data_entry` (`sstable.rs`): seek to `offset`, read the key
length, skip the key, read the value length and the value bytes, and
deserialize them. The four trailing CRC bytes of the entry are never read. -/
def read_data_entry (decode : List Byte → Option DataValue) (file : List Byte)
    (offset : Nat) : Except TreeError DataValue :=
  match readExact 4 (file.drop offset) with
  | none => .error .io
  | some (key_len_bytes, r1) =>
    let key_len := fromLe32 key_len_bytes
    match readExact key_len r1 with
    | none => .error .io
    | some (_, r2) =>
      match readExact 4 r2 with
      | none => .error .io
      | some (value_len_bytes, r3) =>
        let value_len := fromLe32 value_len_bytes
        match readExact value_len r3 with
        | none => .error .io
        | some (value_bytes, _) =>
          match decode value_bytes with
          | some decoded => .ok decoded
          | none => .error .serialization

theorem le32_length (n : Nat) : (le32 n).length = 4 := rfl

theorem readExact_le32 (n : Nat) (rest : List Byte) :
    readExact 4 (le32 n ++ rest) = some (le32 n, rest) := by
  have h := readExact_append (le32 n) rest
  rwa [le32_length] at h

/-- C6 (amended): `read_data_entry` parses the lengths, the key and the value
bytes of a data block and deserializes the value bytes; it never reads the
trailing CRC field, so its result is the same for every value `c` stored in
that field — in particular a CRC mismatch is not detected and does not produce
a `Corruption` error. -/
theorem c6_read_data_entry_independent_of_crc
    (decode : List Byte → Option DataValue) (key vb : List Byte) (c : Nat)
    (hk : key.length < 2 ^ 32) (hv : vb.length < 2 ^ 32) :
    read_data_entry decode
        (le32 key.length ++ key ++ le32 vb.length ++ vb ++ le32 c) 0 =
      match decode vb with
      | some v => .ok v
      | none => .error .serialization := by
  simp only [read_data_entry, List.drop_zero, List.append_assoc, readExact_le32]
  rw [fromLe32_le32 _ hk]
  simp only [readExact_append, readExact_le32]
  rw [fromLe32_le32 _ hv]
  simp only [readExact_append]

/-- Fixed serialization codec used for the C6 concrete instances: decodes the
single byte string `[7]` to a record with payload `[7]`. -/
def c6decode : List Byte → Option DataValue :=
  fun l => if l = [7] then some (DataValue.new 0 [7] none) else none

/-- A data-entry byte image for key `[5]`, value bytes `[7]`, whose stored CRC
field is `crc32 [5, 7]` with its lowest bit flipped — a guaranteed mismatch. -/
def c6bytes : List Byte :=
  le32 1 ++ [5] ++ le32 1 ++ [7] ++ le32 (Nat.xor (crc32 [5, 7]) 1)

set_option maxRecDepth 20000 in
/-- C6 counterexample: an entry whose stored per-entry CRC32 does not match the
CRC32 recomputed over `key ‖ value bytes`, yet `read_data_entry` returns the
decoded value instead of failing with a `Corruption` error — the claimed
recompute-and-compare does not happen. -/
theorem c6_crc_mismatch_read_succeeds :
    Nat.xor (crc32 [5, 7]) 1 ≠ crc32 ([5] ++ [7]) ∧
      read_data_entry c6decode c6bytes 0 = .ok (DataValue.new 0 [7] none) := by
  constructor
  · decide
  · rfl

set_option maxRecDepth 20000 in
/-- Witness for `c6_read_data_entry_independent_of_crc` at a concrete entry
(key `[5]`, value bytes `[7]`, stored CRC field `99`). -/
theorem c6_read_data_entry_independent_of_crc_witness :
    ([5] : List Byte).length < 2 ^ 32 ∧ ([7] : List Byte).length < 2 ^ 32 ∧
      read_data_entry c6decode
          (le32 ([5] : List Byte).length ++ [5] ++ le32 ([7] : List Byte).length ++
            [7] ++ le32 99) 0 =
        match c6decode [7] with
        | some v => .ok v
        | none => .error .serialization :=
  ⟨by decide, by decide,
    c6_read_data_entry_independent_of_crc c6decode [5] [7] 99 (by decide) (by decide)⟩

/-! ### LRU caches (`cache.rs`)

`PathBuf`s are modelled as `Nat` identifiers.  The compile-time constants
`size_of::<DataValue>()`, `size_of::<Vec<u8>>()` and
`size_of::<BTreeMap<Vec<u8>, u64>>()` are abstract size parameters, and
`Vec::capacity()` of a key read from disk is modelled as its length. -/

abbrev CacheKey := Nat × Key

/-- `LRUValueCache::move_to_back` / first-occurrence removal plus push-back. -/
def moveToBack {κ : Type} [DecidableEq κ] (q : List κ) (k : κ) : List κ :=
  if k ∈ q then q.erase k ++ [k] else q

/-- `LRUIndexCache::move_to_back`: `retain` drops every occurrence, then
push-back. -/
def moveToBackRetain (q : List Nat) (path : Nat) : List Nat :=
  q.filter (fun p => p ≠ path) ++ [path]

structure LRUValueCache where
  cache : List (CacheKey × DataValue)
  lru_queue : List CacheKey
  max_capacity : Nat
  memory_limit : Nat
  current_memory_usage : Nat
  hit_count : Nat
  miss_count : Nat
  eviction_count : Nat

/-- `LRUValueCache::estimate_value_size`:
`size_of::<DataValue>() + value.get_data().len()`. -/
def estimate_value_size (szDataValue : Nat) (v : DataValue) : Nat :=
  szDataValue + v.data.length

/-- `LRUValueCache::evict_lru`: pop the queue front; on a cache hit remove the
entry and release its estimated memory, otherwise report failure. -/
def LRUValueCache.evict_lru (sz : Nat) (c : LRUValueCache) : Bool × LRUValueCache :=
  match c.lru_queue with
  | [] => (false, c)
  | lru_key :: rest =>
    match hLookup c.cache lru_key with
    | some value =>
      (true, { c with
        lru_queue := rest
        cache := hErase c.cache lru_key
        current_memory_usage :=
          c.current_memory_usage - estimate_value_size sz value
        eviction_count := c.eviction_count + 1 })
    | none => (false, { c with lru_queue := rest })

/-- The `while … { if !self.evict_lru() { break } }` loop of
`LRUValueCache::put` (fuelled; `put` supplies fuel exceeding the queue
length, which the loop can never consume). -/
def LRUValueCache.evictWhile (sz value_size : Nat) :
    Nat → LRUValueCache → LRUValueCache
  | 0, c => c
  | fuel + 1, c =>
    if (c.cache.length ≥ c.max_capacity ∨
          c.current_memory_usage + value_size > c.memory_limit) ∧
        c.cache ≠ [] then
      match c.evict_lru sz with
      | (true, c') => LRUValueCache.evictWhile sz value_size fuel c'
      | (false, c') => c'
    else c

/-- `LRUValueCache::put`: replace in place on a hit (adjusting the memory
estimate, without bound checks); otherwise evict while over either bound and
insert only if both bounds then admit the new entry. -/
def LRUValueCache.put (sz : Nat) (c : LRUValueCache) (cache_key : CacheKey)
    (value : DataValue) : LRUValueCache :=
  let value_size := estimate_value_size sz value
  match hLookup c.cache cache_key with
  | some old_value =>
    { c with
      current_memory_usage :=
        c.current_memory_usage - estimate_value_size sz old_value + value_size
      cache := hInsert c.cache cache_key value
      lru_queue := moveToBack c.lru_queue cache_key }
  | none =>
    let c1 := LRUValueCache.evictWhile sz value_size (c.lru_queue.length + 1) c
    if c1.cache.length < c1.max_capacity ∧
        c1.current_memory_usage + value_size ≤ c1.memory_limit then
      { c1 with
        cache := hInsert c1.cache cache_key value
        lru_queue := c1.lru_queue ++ [cache_key]
        current_memory_usage := c1.current_memory_usage + value_size }
    else c1

structure LRUIndexCache where
  cache : List (Nat × KMap Nat)
  lru_queue : List Nat
  max_capacity : Nat
  memory_limit : Nat
  current_memory_usage : Nat
  hit_count : Nat
  miss_count : Nat
  eviction_count : Nat

/-- `LRUIndexCache::estimate_index_size`: per key `len + 8` for the offset,
`capacity` (= len here) and a `Vec` header, plus 28 bytes per node and the
`BTreeMap` header. -/
def estimate_index_size (szVec szMap : Nat) (index : KMap Nat) : Nat :=
  index.foldl (fun size p => size + (p.1.length + 8) + p.1.length + szVec) 0 +
    index.length * 28 + szMap

/-- `LRUIndexCache::evict_lru`. -/
def LRUIndexCache.evict_lru (szVec szMap : Nat) (c : LRUIndexCache) :
    Bool × LRUIndexCache :=
  match c.lru_queue with
  | [] => (false, c)
  | path :: rest =>
    match hLookup c.cache path with
    | some index =>
      (true, { c with
        lru_queue := rest
        cache := hErase c.cache path
        current_memory_usage :=
          c.current_memory_usage - estimate_index_size szVec szMap index
        eviction_count := c.eviction_count + 1 })
    | none => (false, { c with lru_queue := rest })

/-- The eviction loop of `LRUIndexCache::put` (no emptiness conjunct in the
source condition). -/
def LRUIndexCache.evictWhile (szVec szMap index_size : Nat) :
    Nat → LRUIndexCache → LRUIndexCache
  | 0, c => c
  | fuel + 1, c =>
    if c.cache.length ≥ c.max_capacity ∨
        c.current_memory_usage + index_size > c.memory_limit then
      match c.evict_lru szVec szMap with
      | (true, c') => LRUIndexCache.evictWhile szVec szMap index_size fuel c'
      | (false, c') => c'
    else c

/-- `LRUIndexCache::put`: replace in place on a hit; otherwise evict while over
either bound and then insert unconditionally — the insertion is not guarded by
the bounds. -/
def LRUIndexCache.put (szVec szMap : Nat) (c : LRUIndexCache) (path : Nat)
    (index : KMap Nat) : LRUIndexCache :=
  let index_size := estimate_index_size szVec szMap index
  match hLookup c.cache path with
  | some old =>
    { c with
      current_memory_usage :=
        c.current_memory_usage - estimate_index_size szVec szMap old + index_size
      cache := hInsert c.cache path index
      lru_queue := moveToBackRetain c.lru_queue path }
  | none =>
    let c1 := LRUIndexCache.evictWhile szVec szMap index_size
      (c.lru_queue.length + 1) c
    { c1 with
      cache := hInsert c1.cache path index
      lru_queue := c1.lru_queue ++ [path]
      current_memory_usage := c1.current_memory_usage + index_size }

theorem hInsert_length_le {κ α : Type} [DecidableEq κ]
    (m : List (κ × α)) (k : κ) (v : α) :
    (hInsert m k v).length ≤ m.length + 1 := by
  induction m with
  | nil => simp [hInsert]
  | cons p rest ih =>
    obtain ⟨k', v'⟩ := p
    simp only [hInsert]
    by_cases h : k' = k
    · simp [h]
    · simp only [if_neg h, List.length_cons]
      omega

theorem hErase_length_le {κ α : Type} [DecidableEq κ]
    (m : List (κ × α)) (k : κ) : (hErase m k).length ≤ m.length := by
  induction m with
  | nil => simp [hErase]
  | cons p rest ih =>
    obtain ⟨k', v'⟩ := p
    simp only [hErase]
    by_cases h : k' = k
    · simp [h]
    · simp only [if_neg h, List.length_cons]
      omega

theorem LRUValueCache.evict_lru_mono (sz : Nat) (c : LRUValueCache) :
    (c.evict_lru sz).2.cache.length ≤ c.cache.length ∧
      (c.evict_lru sz).2.current_memory_usage ≤ c.current_memory_usage ∧
      (c.evict_lru sz).2.max_capacity = c.max_capacity ∧
      (c.evict_lru sz).2.memory_limit = c.memory_limit := by
  unfold LRUValueCache.evict_lru
  cases hq : c.lru_queue with
  | nil => simp
  | cons lru_key rest =>
    cases hl : hLookup c.cache lru_key with
    | some value =>
      simp only [hl]
      refine ⟨hErase_length_le _ _, Nat.sub_le _ _, ?_, ?_⟩ <;> trivial
    | none => simp [hl]

theorem LRUValueCache.evictWhile_mono (sz value_size fuel : Nat)
    (c : LRUValueCache) :
    (LRUValueCache.evictWhile sz value_size fuel c).cache.length ≤ c.cache.length ∧
      (LRUValueCache.evictWhile sz value_size fuel c).current_memory_usage ≤
        c.current_memory_usage ∧
      (LRUValueCache.evictWhile sz value_size fuel c).max_capacity =
        c.max_capacity ∧
      (LRUValueCache.evictWhile sz value_size fuel c).memory_limit =
        c.memory_limit := by
  induction fuel generalizing c with
  | zero => simp [LRUValueCache.evictWhile]
  | succ n ih =>
    simp only [LRUValueCache.evictWhile]
    by_cases hc : (c.cache.length ≥ c.max_capacity ∨
        c.current_memory_usage + value_size > c.memory_limit) ∧ c.cache ≠ []
    · simp only [if_pos hc]
      have hm := LRUValueCache.evict_lru_mono sz c
      match hev : c.evict_lru sz with
      | (true, c') =>
        rw [hev] at hm
        have := ih c'
        exact ⟨le_trans this.1 hm.1, le_trans this.2.1 hm.2.1,
          this.2.2.1.trans hm.2.2.1, this.2.2.2.trans hm.2.2.2⟩
      | (false, c') =>
        rw [hev] at hm
        exact hm
    · simp [if_neg hc]

/-- C5 (amended, positive part): a `LRUValueCache::put` of a key that is not
yet cached preserves both configured bounds: if the entry count was within
`max_capacity` and the estimated memory within `memory_limit` before the call,
they still are when it returns (the insert is guarded by both bounds and
eviction only shrinks the cache). -/
theorem c5_value_cache_put_new_key_preserves_bounds (sz : Nat)
    (c : LRUValueCache) (ck : CacheKey) (v : DataValue)
    (hnew : hLookup c.cache ck = none)
    (hlen : c.cache.length ≤ c.max_capacity)
    (hmem : c.current_memory_usage ≤ c.memory_limit) :
    (c.put sz ck v).cache.length ≤ (c.put sz ck v).max_capacity ∧
      (c.put sz ck v).current_memory_usage ≤ (c.put sz ck v).memory_limit := by
  have hm := LRUValueCache.evictWhile_mono sz (estimate_value_size sz v)
    (c.lru_queue.length + 1) c
  unfold LRUValueCache.put
  rw [hnew]
  dsimp only
  revert hm
  generalize LRUValueCache.evictWhile sz (estimate_value_size sz v)
    (c.lru_queue.length + 1) c = c1
  intro hm
  by_cases hcond : c1.cache.length < c1.max_capacity ∧
      c1.current_memory_usage + estimate_value_size sz v ≤ c1.memory_limit
  · rw [if_pos hcond]
    have h1 := hInsert_length_le c1.cache ck v
    dsimp only
    constructor <;> omega
  · rw [if_neg hcond]
    exact ⟨hm.2.2.1 ▸ le_trans hm.1 hlen, hm.2.2.2 ▸ le_trans hm.2.1 hmem⟩

/-- The index cache with `max_capacity = 0` and `memory_limit = 100` used by
the C5 counterexample. -/
def c5cache0 : LRUIndexCache :=
  { cache := []
    lru_queue := []
    max_capacity := 0
    memory_limit := 100
    current_memory_usage := 0
    hit_count := 0
    miss_count := 0
    eviction_count := 0 }

/-- C5 counterexample: `LRUIndexCache::put` inserts unconditionally once its
eviction loop stops, so after the call returns the cache holds one entry even
though its configured maximum entry count is `0` — the claimed bound
`size ≤ max_capacity` is exceeded. -/
theorem c5_index_cache_put_exceeds_capacity :
    (c5cache0.put 16 24 7 []).max_capacity = 0 ∧
      (c5cache0.put 16 24 7 []).cache.length = 1 := by
  constructor <;> rfl

/-- A well-bounded one-entry value cache for the C5 witness. -/
def c5witnessCache : LRUValueCache :=
  { cache := [((2, [0]), DataValue.new 0 [4] none)]
    lru_queue := [(2, [0])]
    max_capacity := 2
    memory_limit := 1000
    current_memory_usage := 17
    hit_count := 0
    miss_count := 0
    eviction_count := 0 }

/-- Witness for `c5_value_cache_put_new_key_preserves_bounds` at a concrete
one-entry cache. -/
theorem c5_value_cache_put_new_key_preserves_bounds_witness :
    hLookup c5witnessCache.cache (3, [1]) = none ∧
      c5witnessCache.cache.length ≤ c5witnessCache.max_capacity ∧
      c5witnessCache.current_memory_usage ≤ c5witnessCache.memory_limit ∧
      ((c5witnessCache.put 16 (3, [1]) (DataValue.new 0 [9] none)).cache.length ≤
          (c5witnessCache.put 16 (3, [1]) (DataValue.new 0 [9] none)).max_capacity ∧
        (c5witnessCache.put 16 (3, [1])
              (DataValue.new 0 [9] none)).current_memory_usage ≤
          (c5witnessCache.put 16 (3, [1]) (DataValue.new 0 [9] none)).memory_limit) :=
  ⟨rfl, by decide, by decide,
    c5_value_cache_put_new_key_preserves_bounds 16 c5witnessCache (3, [1])
      (DataValue.new 0 [9] none) rfl (by decide) (by decide)⟩

/-! ### WAL records and recovery replay (`wal.rs`, `wal_writer.rs`) -/

/-- `WalOperation` (`wal.rs`): `Checkpoint = 1`, `Put = 2`, `Delete = 3`. -/
inductive WalOperation where
  | checkpoint
  | put
  | delete
  deriving Repr, DecidableEq

/-- One WAL record as handed to `WalWriter::write_entry`: the operation, the
key, and the optional `DataValue` whose encoding becomes the value bytes. -/
structure WalEntry where
  op : WalOperation
  key : Key
  value : Option DataValue
  deriving Repr, DecidableEq

/-- On-disk size of one WAL record:
`[crc 4][op 1][key_len 4][key][value_len 4][value bytes]`. -/
def wal_entry_size (encode : DataValue → List Byte) (e : WalEntry) : Nat :=
  13 + e.key.length +
    (match e.value with
     | some dv => (encode dv).length
     | none => 0)

/-- Size of the WAL file holding the given records. -/
def wal_file_size (encode : DataValue → List Byte) (w : List WalEntry) : Nat :=
  (w.map (wal_entry_size encode)).sum

/-- The key of checkpoint records written through `WalWriter::write_checkpoint`
(`b"CHCKPT"`). -/
def chckptKey : Key := [67, 72, 67, 75, 80, 84]

/-- The record-index scan of `Tree::recover_from_wal`: the index of the last
`Checkpoint` record, if any. -/
def last_checkpoint_index (entries : List (WalOperation × Key × DataValue)) :
    Option Nat :=
  entries.enum.foldl
    (fun acc p => if p.2.1 = WalOperation.checkpoint then some p.1 else acc) none

/-- `start_index` of `Tree::recover_from_wal`: one past the last checkpoint,
or `0` when no checkpoint exists. -/
def wal_start_index (entries : List (WalOperation × Key × DataValue)) : Nat :=
  match last_checkpoint_index entries with
  | some checkpoint_idx => checkpoint_idx + 1
  | none => 0

/-- One step of the replay loop of `Tree::recover_from_wal`: `Put` inserts the
decoded value, `Delete` inserts a fresh tombstone, `Checkpoint` is skipped. -/
def replay_step (now : Nat) (mem_table : KMap DataValue)
    (e : WalOperation × Key × DataValue) : KMap DataValue :=
  match e.1 with
  | .put => kmInsert mem_table e.2.1 e.2.2
  | .delete => kmInsert mem_table e.2.1 (DataValue.tombstone now)
  | .checkpoint => mem_table

/-- `Tree::recover_from_wal` (`wal.rs`), acting on the decoded record list of
the WAL file: skip everything up to and including the last checkpoint, then
replay the remaining records into an empty memtable. -/
def recover_from_wal (now : Nat)
    (entries : List (WalOperation × Key × DataValue)) : KMap DataValue :=
  (entries.drop (wal_start_index entries)).foldl (replay_step now) []

/-- The last record for key `k` that is not a checkpoint (later records
preferred), used to state what recovery replays. -/
def lastDataRecord (k : Key) :
    List (WalOperation × Key × DataValue) →
      Option (WalOperation × Key × DataValue)
  | [] => none
  | e :: rest =>
    match lastDataRecord k rest with
    | some r => some r
    | none =>
      if e.2.1 = k ∧ e.1 ≠ WalOperation.checkpoint then some e else none

/-- The memtable record a replayed WAL record produces. -/
def replayedValue (now : Nat) (e : WalOperation × Key × DataValue) :
    Option DataValue :=
  match e.1 with
  | .put => some e.2.2
  | .delete => some (DataValue.tombstone now)
  | .checkpoint => none

theorem replay_lookup (now : Nat) (k : Key) :
    ∀ (l : List (WalOperation × Key × DataValue)) (mem : KMap DataValue),
      kmLookup (l.foldl (replay_step now) mem) k =
        match lastDataRecord k l with
        | some e => replayedValue now e
        | none => kmLookup mem k := by
  intro l
  induction l with
  | nil => intro mem; simp [lastDataRecord]
  | cons e t ih =>
    intro mem
    obtain ⟨op, ek, dv⟩ := e
    simp only [List.foldl_cons, ih, lastDataRecord]
    cases hl : lastDataRecord k t with
    | some r => simp
    | none =>
      simp only
      by_cases hk : ek = k
      · subst hk
        cases op with
        | checkpoint => simp [replay_step]
        | put => simp [replay_step, replayedValue, kmLookup_insert_self]
        | delete => simp [replay_step, replayedValue, kmLookup_insert_self]
      · cases op with
        | checkpoint => simp [replay_step, hk]
        | put => simp [replay_step, hk, kmLookup_insert_ne _ _ _ _ hk]
        | delete => simp [replay_step, hk, kmLookup_insert_ne _ _ _ _ hk]

/-- C8 (amended): recovery replays exactly the records strictly after the last
`Checkpoint` record of the WAL — wherever that checkpoint occurs, not only
when it is the final record — with last-write-wins per key: the recovered
memtable maps `k` to the last post-checkpoint `Put` value for `k`, to a fresh
tombstone when the last post-checkpoint record for `k` is a `Delete`, and to
nothing otherwise. Records at or before the last checkpoint are never
replayed, and checkpoint records are never inserted as data. -/
theorem c8_recovery_replays_after_last_checkpoint (now : Nat)
    (entries : List (WalOperation × Key × DataValue)) (k : Key) :
    kmLookup (recover_from_wal now entries) k =
      match lastDataRecord k (entries.drop (wal_start_index entries)) with
      | some e => replayedValue now e
      | none => none := by
  unfold recover_from_wal
  rw [replay_lookup]
  cases lastDataRecord k (entries.drop (wal_start_index entries)) <;> simp [kmLookup]

/-- The concrete WAL content of the C8 counterexample:
`[Put [10] ↦ payload [1]; Checkpoint; Put [11] ↦ payload [2]]`. -/
def c8entries : List (WalOperation × Key × DataValue) :=
  [(.put, [10], DataValue.new 0 [1] none),
   (.checkpoint, chckptKey, DataValue.checkpoint 0),
   (.put, [11], DataValue.new 0 [2] none)]

/-- C8 counterexample: the last record of this WAL content is a `Put`, not a
`Checkpoint`, so the claim requires every `Put` to be replayed; yet recovery
drops the `Put` of key `[10]` because it precedes a mid-log checkpoint — only
the records after the last checkpoint are replayed. -/
theorem c8_pre_checkpoint_put_not_replayed :
    (c8entries.getLast?.map (fun e => e.1)) ≠ some WalOperation.checkpoint ∧
      kmLookup (recover_from_wal 5 c8entries) [11] =
        some (DataValue.new 0 [2] none) ∧
      kmLookup (recover_from_wal 5 c8entries) [10] = none := by
  refine ⟨by decide, rfl, rfl⟩

/-! ### K-way merge (`sstable.rs`: `merge_sstables`, `HeapEntry`) -/

/-- `HeapEntry` of `sstable.rs`. Its `Ord` implementation compares only the
keys, reversed (`other.key.cmp(&self.key)`), so `BinaryHeap::pop` yields a
minimal-key entry; nothing orders entries with equal keys. -/
structure HeapEntry where
  key : Key
  value : DataValue
  table_index : Nat
  deriving Repr, DecidableEq

/-- Extract a minimal-key entry (the max of the reversed order). Among equal
keys `BinaryHeap`'s choice is unspecified; this model keeps the earliest
element of the list — no theorem below depends on the tie order. -/
def heapPopAux : HeapEntry → List HeapEntry → HeapEntry × List HeapEntry
  | m, [] => (m, [])
  | m, e :: es =>
    if keyCmp e.key m.key = .lt then
      let p := heapPopAux e es
      (p.1, m :: p.2)
    else
      let p := heapPopAux m es
      (p.1, e :: p.2)

/-- `BinaryHeap::pop` under the reversed-key `Ord` of `HeapEntry`. -/
def heapPop : List HeapEntry → Option (HeapEntry × List HeapEntry)
  | [] => none
  | e :: es => some (heapPopAux e es)

/-- Pull the next `(key, value)` from iterator `table_index` (if any) and push
it onto the heap — the `iterators[table_index].next()` / `min_heap.push`
pattern of the merge loop. -/
def advanceIter (iterators : List (List (Key × DataValue)))
    (heap : List HeapEntry) (table_index : Nat) :
    List (List (Key × DataValue)) × List HeapEntry :=
  match iterators[table_index]? with
  | some ((next_key, next_value) :: rest) =>
    (iterators.set table_index rest,
      ⟨next_key, next_value, table_index⟩ :: heap)
  | _ => (iterators, heap)

/-- The `while let Some(entry) = min_heap.pop()` loop of
`Tree::merge_sstables`, transcribed: empty or tombstone entries are skipped
*without* pulling from their iterator; an entry equal to `last_key` advances
its iterator and is skipped; otherwise the entry is emitted and its iterator
advanced. Fuelled: `merge_tables` passes more fuel than the loop can use. -/
def mergeLoop : Nat → List (List (Key × DataValue)) → List HeapEntry →
    Option Key → KMap DataValue → KMap DataValue
  | 0, _, _, _, merged => merged
  | fuel + 1, iterators, heap, last_key, merged =>
    match heapPop heap with
    | none => merged
    | some (entry, heap1) =>
      if entry.value.isEmptyData || entry.value.is_tombstone then
        mergeLoop fuel iterators heap1 last_key merged
      else if last_key = some entry.key then
        let p := advanceIter iterators heap1 entry.table_index
        mergeLoop fuel p.1 p.2 last_key merged
      else
        let p := advanceIter iterators heap1 entry.table_index
        mergeLoop fuel p.1 p.2 (some entry.key)
          (kmInsert merged entry.key entry.value)

/-- Initialization of the merge: one iterator per loaded table (its sorted
entry list), the head of each pushed onto the heap with its table index. -/
def initMergeState (tables : List (KMap DataValue)) :
    List (List (Key × DataValue)) × List HeapEntry :=
  tables.enum.foldl
    (fun acc p =>
      match p.2 with
      | [] => (acc.1 ++ [[]], acc.2)
      | (key, value) :: rest =>
        (acc.1 ++ [rest], ⟨key, value, p.1⟩ :: acc.2))
    ([], [])

/-- Fuel that the merge loop can never exhaust: one more than the total number
of input entries. -/
def merge_fuel (tables : List (KMap DataValue)) : Nat :=
  (tables.map List.length).sum + 1

/-- The k-way merge of `Tree::merge_sstables` producing the content of the new
run from the loaded tables (oldest first, as in `ss_tables`). -/
def merge_tables (tables : List (KMap DataValue)) : KMap DataValue :=
  let s := initMergeState tables
  mergeLoop (merge_fuel tables) s.1 s.2 none []

/-! ### Transaction manager (`transaction.rs`, `transaction_manager.rs`) -/

structure VersionStamp where
  version : Nat
  timestamp : Nat
  deriving Repr, DecidableEq

inductive TransactionStatus where
  | active
  | committed
  | aborted
  deriving Repr, DecidableEq

structure TransactionContext where
  read_set : List (Key × VersionStamp)
  write_set : List (Key × DataValue)
  validation_set : List Key
  status : TransactionStatus
  deriving Repr, DecidableEq

structure TransactionManager where
  active_transactions : List (Nat × TransactionContext)
  next_transaction_id : Nat
  global_version : Nat
  key_versions : List (Key × VersionStamp)
  deriving Repr, DecidableEq

/-- `TransactionManager::new`. -/
def TransactionManager.new : TransactionManager :=
  { active_transactions := []
    next_transaction_id := 1
    global_version := 1
    key_versions := [] }

/-- `TransactionManager::validate_transaction`: every read-set entry must not
be outrun by the current version stamp of its key, in version and in
timestamp. -/
def TransactionManager.validate_transaction (txm : TransactionManager)
    (tx_id : Nat) : Except TreeError Bool :=
  match hLookup txm.active_transactions tx_id with
  | none => .error .transaction
  | some tx_context =>
    .ok (tx_context.read_set.all fun p =>
      match hLookup txm.key_versions p.1 with
      | some current_version =>
        if current_version.version > p.2.version then false
        else if current_version.timestamp > p.2.timestamp then false
        else true
      | none => true)

/-- `TransactionManager::rollback_transaction`: the context is marked aborted,
its write set cleared, and then removed — the net effect on the manager state
is the removal. -/
def TransactionManager.rollback_transaction (txm : TransactionManager)
    (tx_id : Nat) : TransactionManager :=
  { txm with active_transactions := hErase txm.active_transactions tx_id }

/-- `TransactionManager::apply_transaction_changes`: for every written key,
bump the global version and stamp the key with it and `now`. -/
def TransactionManager.apply_transaction_changes (txm : TransactionManager)
    (now : Nat) (tx_id : Nat) : TransactionManager :=
  match hLookup txm.active_transactions tx_id with
  | none => txm
  | some tx_context =>
    tx_context.write_set.foldl
      (fun acc p =>
        { acc with
          global_version := acc.global_version + 1
          key_versions :=
            hInsert acc.key_versions p.1 ⟨acc.global_version + 1, now⟩ })
      txm

/-- `TransactionManager::finalize_transaction`: mark committed, then remove —
net effect, the removal. -/
def TransactionManager.finalize_transaction (txm : TransactionManager)
    (tx_id : Nat) : TransactionManager :=
  { txm with active_transactions := hErase txm.active_transactions tx_id }

/-! ### The tree façade (`mod.rs`)

The embedding fixes `CompressionType::None` (compress and decompress are the
identity), disables the two LRU caches and the bloom cache for reads (with
the caches off, `read_key_from_sstable` on a well-formed run denotes exactly
the lookup in the run's stored table), and represents a sorted run by its
table content (`write_sstable` then `load_sstable` round-trip).  The
`tx_manager` field is referenced by `transaction.rs` and `test.rs`; its
declaration is missing from the `Tree` struct of `mod.rs` in this snapshot. -/

structure TreeSettings where
  mem_table_max_size : Nat
  wal_max_size : Nat
  bincode_encode : DataValue → List Byte

structure Tree where
  mem_table : KMap DataValue
  immutable_mem_tables : List (KMap DataValue)
  ss_tables : List (KMap DataValue)
  wal_writer : Option (List WalEntry)
  settings : TreeSettings
  tx_manager : TransactionManager

/-- The last-checkpoint scan of `cleanup_wal_before_checkpoint` over the
active WAL file's records. -/
def wal_last_checkpoint_index (w : List WalEntry) : Option Nat :=
  w.enum.foldl
    (fun acc p => if p.2.op = WalOperation.checkpoint then some p.1 else acc)
    none

/-- `Tree::cleanup_wal_before_checkpoint` (`wal.rs`): rewrite the WAL file so
that it keeps only the records strictly after its last checkpoint; a WAL
without checkpoint is left alone. -/
def cleanup_wal_before_checkpoint (w : List WalEntry) : List WalEntry :=
  match wal_last_checkpoint_index w with
  | some index => w.drop (index + 1)
  | none => w

/-- `Tree::write_to_wal` (`wal.rs`): when a writer exists, check the size
threshold first, append the record (flushed to the OS), and on overflow also
append a checkpoint and rewrite the file dropping everything up to it.
`wal_ok` is the I/O oracle: `false` makes the underlying append fail. -/
def Tree.write_to_wal (t : Tree) (wal_ok : Bool) (op : WalOperation) (key : Key)
    (data_value : Option DataValue) : Except TreeError Tree :=
  match t.wal_writer with
  | none => .ok t
  | some w =>
    if wal_ok then
      let should_checkpoint :=
        wal_file_size t.settings.bincode_encode w > t.settings.wal_max_size
      let w1 := w ++ [⟨op, key, data_value⟩]
      if should_checkpoint then
        .ok { t with
          wal_writer := some (cleanup_wal_before_checkpoint
            (w1 ++ [⟨.checkpoint, chckptKey, none⟩])) }
      else .ok { t with wal_writer := some w1 }
    else .error .wal

/-- The layer scan of `Tree::get`: return the first record found that is not
expired; a hit that is expired falls through to the next (older) layer. -/
def lookupLayers (now : Nat) (key : Key) :
    List (KMap DataValue) → Option DataValue
  | [] => none
  | table :: rest =>
    match kmLookup table key with
    | some value =>
      if value.isExpired now then lookupLayers now key rest else some value
    | none => lookupLayers now key rest

/-- `Tree::get` (`mod.rs`): memtable, then the immutable tables newest first,
then the runs newest first; the payload of the record found is returned after
(identity) decompression.  No tombstone check is performed. -/
def Tree.get (t : Tree) (now : Nat) (key : Key) : Option (List Byte) :=
  (lookupLayers now key
      (t.mem_table :: (t.immutable_mem_tables.reverse ++ t.ss_tables.reverse))).map
    DataValue.data

/-- `Tree::contains_key`. -/
def Tree.contains_key (t : Tree) (now : Nat) (key : Key) : Bool :=
  (t.get now key).isSome

/-- `Tree::delete` (`mod.rs`): only when the key is currently visible, append
a `Delete` WAL record and insert a tombstone into the memtable. -/
def Tree.delete (t : Tree) (wal_ok : Bool) (now : Nat) (key : Key) :
    Except TreeError (Bool × Tree) :=
  if t.contains_key now key then
    match t.write_to_wal wal_ok .delete key none with
    | .error e => .error e
    | .ok t1 =>
      .ok (true, { t1 with
        mem_table := kmInsert t1.mem_table key (DataValue.tombstone now) })
  else .ok (false, t)

/-- `Tree::merge_sstables` (`sstable.rs`): take the oldest
`min(|ss_tables|, 3)` runs (noop below two), merge them, and append the
merged run at the end of the list; the consumed runs are removed.  Cache
invalidation, file deletion and renaming are path bookkeeping without effect
on run contents and are not modelled. -/
def Tree.merge_sstables (t : Tree) : Tree :=
  let tables_to_merge_count := min t.ss_tables.length 3
  if tables_to_merge_count < 2 then t
  else
    { t with
      ss_tables := t.ss_tables.drop tables_to_merge_count ++
        [merge_tables (t.ss_tables.take tables_to_merge_count)] }

/-- `Tree::compact` (`mod.rs`): pop the oldest immutable table, persist it as
a new run at the end of the run list, write a WAL checkpoint and rotate to a
fresh segment, and merge when more than two runs exist.
(`create_new_wal_segment` is absent from the sources; modelled from the spec:
rotation opens a fresh empty segment as the active WAL, the previous segment
staying on disk outside this single-active-file model.) -/
def Tree.compact (t : Tree) : Tree :=
  match t.immutable_mem_tables with
  | [] => t
  | immutable_table :: rest =>
    let t1 := { t with
      immutable_mem_tables := rest
      ss_tables := t.ss_tables ++ [immutable_table] }
    let t2 :=
      match t1.wal_writer with
      | some _ => { t1 with wal_writer := some [] }
      | none => t1
    if t2.ss_tables.length > 2 then t2.merge_sstables else t2

/-- `Tree::flush_mem_table`: take the whole memtable, push it to the back of
the immutable queue, and compact once. -/
def Tree.flush_mem_table (t : Tree) : Tree :=
  Tree.compact { t with
    mem_table := []
    immutable_mem_tables := t.immutable_mem_tables ++ [t.mem_table] }

/-- `Tree::put_to_tree` (`mod.rs`): compress (identity here), build the
record, append the WAL record, insert into the memtable, and flush when the
memtable exceeds `mem_table_max_size`. -/
def Tree.put_to_tree (t : Tree) (wal_ok : Bool) (now : Nat) (key : Key)
    (value : List Byte) (ttl : Option Nat) : Except TreeError Tree :=
  let data_value := DataValue.new now value ttl
  match t.write_to_wal wal_ok .put key (some data_value) with
  | .error e => .error e
  | .ok t1 =>
    let t2 := { t1 with mem_table := kmInsert t1.mem_table key data_value }
    if kmSize t2.mem_table > t2.settings.mem_table_max_size then
      .ok t2.flush_mem_table
    else .ok t2

/-- `Tree::update_ttl` (`mod.rs`): remove the memtable entry; when it is not
expired, reinsert it with the new expiry and return `true`; an expired entry
stays removed and the call returns `false`. -/
def Tree.update_ttl (t : Tree) (now : Nat) (key : Key) (new_ttl : Option Nat) :
    Bool × Tree :=
  match kmLookup t.mem_table key with
  | some value =>
    let removed := { t with mem_table := kmErase t.mem_table key }
    if ¬ value.isExpired now then
      (true, { removed with
        mem_table := kmInsert removed.mem_table key
          { value with expires_at := new_ttl.map (fun duration => now + duration) } })
    else (false, removed)
  | none => (false, t)

/-- `Tree::begin_transaction` via `TransactionManager::begin_transaction`:
allocate the next transaction id and register a fresh active context. -/
def Tree.begin_transaction (t : Tree) : Nat × Tree :=
  let tx_id := t.tx_manager.next_transaction_id
  (tx_id,
    { t with
      tx_manager :=
        { t.tx_manager with
          next_transaction_id := tx_id + 1
          active_transactions :=
            hInsert t.tx_manager.active_transactions tx_id
              { read_set := []
                write_set := []
                validation_set := []
                status := .active } } })

/-- `HashSet::insert` on the validation set. -/
def vsInsert (s : List Key) (key : Key) : List Key :=
  if key ∈ s then s else s ++ [key]

/-- `Tree::put_tx` (`transaction.rs`) via
`TransactionManager::write_transaction`: record the value in the write set
and the key in the validation set; neither memtable nor WAL is touched. -/
def Tree.put_tx (t : Tree) (now : Nat) (tx_id : Nat) (key : Key)
    (value : List Byte) (ttl : Option Nat) : Except TreeError Tree :=
  let data_value := DataValue.new now value ttl
  match hLookup t.tx_manager.active_transactions tx_id with
  | none => .error .transaction
  | some tx_context =>
    .ok { t with
      tx_manager :=
        { t.tx_manager with
          active_transactions :=
            hInsert t.tx_manager.active_transactions tx_id
              { tx_context with
                write_set := hInsert tx_context.write_set key data_value
                validation_set := vsInsert tx_context.validation_set key } } }

/-- `Tree::get_tx` (`transaction.rs`): a write-set hit is answered locally
(expired ⇒ absent) with *no* read-set recording; otherwise the engine read is
performed and the observed version stamp is recorded — the key's current
stamp if one exists, else the zero/epoch stamp, and that only when the engine
read found a value. -/
def Tree.get_tx (t : Tree) (now : Nat) (tx_id : Nat) (key : Key) :
    Except TreeError (Option (List Byte) × Tree) :=
  match hLookup t.tx_manager.active_transactions tx_id with
  | none => .error .transaction
  | some tx_context =>
    match hLookup tx_context.write_set key with
    | some value =>
      if value.isExpired now then .ok (none, t) else .ok (some value.data, t)
    | none =>
      let result := t.get now key
      let read_set1 :=
        match hLookup t.tx_manager.key_versions key with
        | some version_stamp => hInsert tx_context.read_set key version_stamp
        | none =>
          if result.isSome then
            hInsert tx_context.read_set key ⟨0, 0⟩
          else tx_context.read_set
      .ok (result,
        { t with
          tx_manager :=
            { t.tx_manager with
              active_transactions :=
                hInsert t.tx_manager.active_transactions tx_id
                  { tx_context with
                    validation_set := vsInsert tx_context.validation_set key
                    read_set := read_set1 } } })

/-- The write-application loop of `Tree::commit_transaction`: expired entries
are skipped; entries without expiry go through `put`; entries with a future
expiry are re-put with the remaining TTL; entries whose expiry has passed are
skipped.  An error from the put path aborts the loop, leaving the partially
applied state. -/
def Tree.apply_write_set (t : Tree) (wal_ok : Bool) (now : Nat) :
    List (Key × DataValue) → Except TreeError Unit × Tree
  | [] => (.ok (), t)
  | (key, value) :: rest =>
    if value.isExpired now then Tree.apply_write_set t wal_ok now rest
    else
      match value.expires_at with
      | none =>
        match t.put_to_tree wal_ok now key value.data none with
        | .error e => (.error e, t)
        | .ok t1 => Tree.apply_write_set t1 wal_ok now rest
      | some expiry =>
        if now ≤ expiry then
          match t.put_to_tree wal_ok now key value.data (some (expiry - now)) with
          | .error e => (.error e, t)
          | .ok t1 => Tree.apply_write_set t1 wal_ok now rest
        else Tree.apply_write_set t wal_ok now rest

/-- `Tree::commit_transaction` (`transaction.rs`): validate against the
read set — on conflict roll the transaction back and return a `Transaction`
error; otherwise apply the write set through the normal put path, bump the
per-key version stamps, and remove the context. -/
def Tree.commit_transaction (t : Tree) (wal_ok : Bool) (now : Nat)
    (tx_id : Nat) : Except TreeError Unit × Tree :=
  match t.tx_manager.validate_transaction tx_id with
  | .error e => (.error e, t)
  | .ok false =>
    (.error .transaction,
      { t with tx_manager := t.tx_manager.rollback_transaction tx_id })
  | .ok true =>
    match hLookup t.tx_manager.active_transactions tx_id with
    | none => (.error .transaction, t)
    | some tx_context =>
      let r := t.apply_write_set wal_ok now tx_context.write_set
      match r.1 with
      | .error e => (.error e, r.2)
      | .ok _ =>
        let txm1 := r.2.tx_manager.apply_transaction_changes now tx_id
        let txm2 := txm1.finalize_transaction tx_id
        (.ok (), { r.2 with tx_manager := txm2 })

/-! ### C1, C4, C10 -/

theorem kmLookup_eq_none {α : Type} (m : KMap α) (k : Key)
    (h : k ∉ m.map Prod.fst) : kmLookup m k = none := by
  induction m with
  | nil => rfl
  | cons p rest ih =>
    obtain ⟨k', v'⟩ := p
    simp only [List.map_cons, List.mem_cons] at h
    push_neg at h
    simp [kmLookup, Ne.symm h.1, ih h.2]

theorem kmLookup_erase_self {α : Type} (m : KMap α) (k : Key)
    (hnd : (m.map Prod.fst).Nodup) : kmLookup (kmErase m k) k = none := by
  induction m with
  | nil => simp [kmErase, kmLookup]
  | cons p rest ih =>
    obtain ⟨k', v'⟩ := p
    simp only [List.map_cons, List.nodup_cons] at hnd
    simp only [kmErase]
    by_cases h : k' = k
    · subst h
      rw [if_pos rfl]
      exact kmLookup_eq_none rest k' hnd.1
    · simp [kmLookup, h, ih hnd.2]

/-- Settings instance shared by the concrete scenarios (`CompressionType::None`
is built into the embedding; the codec instance is irrelevant when the WAL is
disabled). -/
def sampleSettings : TreeSettings :=
  { mem_table_max_size := 10
    wal_max_size := 1000000
    bincode_encode := fun _ => [] }

/-- A tree holding one live entry `[1] ↦ payload [118]`, WAL disabled. -/
def c1tree : Tree :=
  { mem_table := [([1], DataValue.new 0 [118] none)]
    immutable_mem_tables := []
    ss_tables := []
    wal_writer := none
    settings := sampleSettings
    tx_manager := TransactionManager.new }

/-- C1 (code bug): after `put k v; delete k` (the delete returning `true`), a
`get k` returns `some []` — the empty payload of the tombstone record that
`delete` inserted — instead of the claimed `none`: `Tree::get` checks
`is_expired` but never `is_tombstone`, so the tombstone is served as a value. -/
theorem c1_delete_then_get_returns_tombstone_payload :
    (c1tree.delete true 5 [1]).map (fun p => (p.1, p.2.get 5 [1])) =
      .ok (true, some []) := rfl

/-- A tree whose newest record for `[1]` (in the memtable) is expired at
`now = 10` while an older run still holds a live shadowed value `[9]`. -/
def c4tree : Tree :=
  { mem_table := [([1],
      { data := [1]
        expires_at := some 5
        created_at := 0
        is_tombstone := false
        transaction_id := none })]
    immutable_mem_tables := []
    ss_tables := [[([1], DataValue.new 0 [9] none)]]
    wal_writer := none
    settings := sampleSettings
    tx_manager := TransactionManager.new }

/-- C4 counterexample: the newest-layer record for `[1]` is expired, yet `get`
returns the older shadowed value `[9]` from the run instead of the claimed
absent — the expired newest record is not authoritative, the scan falls
through. -/
theorem c4_expired_newest_returns_shadowed_value :
    (kmLookup c4tree.mem_table [1]).map (fun v => v.isExpired 10) = some true ∧
      c4tree.get 10 [1] = some [9] := ⟨rfl, rfl⟩

/-- C4 (amended): `get` scans the layers newest first and skips an expired
record as if the key were not present in that layer: with an expired memtable
record for `key`, the result equals the result on the tree with that record
removed, so the lookup falls through to older layers rather than reading the
key as absent. -/
theorem c4_get_skips_expired_newest (t : Tree) (now : Nat) (key : Key)
    (dv : DataValue)
    (hnd : (t.mem_table.map Prod.fst).Nodup)
    (hmem : kmLookup t.mem_table key = some dv)
    (hexp : dv.isExpired now = true) :
    t.get now key =
      Tree.get { t with mem_table := kmErase t.mem_table key } now key := by
  unfold Tree.get
  simp only [lookupLayers, hmem, hexp, kmLookup_erase_self t.mem_table key hnd,
    if_true]

/-- Witness for `c4_get_skips_expired_newest` at `c4tree`. -/
theorem c4_get_skips_expired_newest_witness :
    (c4tree.mem_table.map Prod.fst).Nodup ∧
      kmLookup c4tree.mem_table [1] = some
        { data := [1]
          expires_at := some 5
          created_at := 0
          is_tombstone := false
          transaction_id := none } ∧
      DataValue.isExpired
          { data := [1]
            expires_at := some 5
            created_at := 0
            is_tombstone := false
            transaction_id := none } 10 = true ∧
      c4tree.get 10 [1] =
        Tree.get { c4tree with mem_table := kmErase c4tree.mem_table [1] } 10 [1] :=
  ⟨by decide, rfl, by decide,
    c4_get_skips_expired_newest c4tree 10 [1] _ (by decide) rfl (by decide)⟩

/-- C10 (confirmed): `update_ttl` on a memtable-resident key whose record is
already expired returns `false` and removes the entry from the memtable
without reinsertion; no other layer — immutable queue, run list, WAL,
transaction manager — is modified. -/
theorem c10_update_ttl_expired_removes_entry (t : Tree) (now : Nat) (key : Key)
    (new_ttl : Option Nat) (v : DataValue)
    (hmem : kmLookup t.mem_table key = some v)
    (hexp : v.isExpired now = true) :
    (t.update_ttl now key new_ttl).1 = false ∧
      (t.update_ttl now key new_ttl).2.mem_table = kmErase t.mem_table key ∧
      (t.update_ttl now key new_ttl).2.immutable_mem_tables =
        t.immutable_mem_tables ∧
      (t.update_ttl now key new_ttl).2.ss_tables = t.ss_tables ∧
      (t.update_ttl now key new_ttl).2.wal_writer = t.wal_writer ∧
      (t.update_ttl now key new_ttl).2.tx_manager = t.tx_manager := by
  unfold Tree.update_ttl
  rw [hmem]
  simp [hexp]

/-- A tree holding one already-expired entry for the C10 witness. -/
def c10tree : Tree :=
  { mem_table := [([1],
      { data := [7]
        expires_at := some 3
        created_at := 0
        is_tombstone := false
        transaction_id := none })]
    immutable_mem_tables := []
    ss_tables := []
    wal_writer := none
    settings := sampleSettings
    tx_manager := TransactionManager.new }

/-- Witness for `c10_update_ttl_expired_removes_entry` at `c10tree`,
`now = 9`. -/
theorem c10_update_ttl_expired_removes_entry_witness :
    kmLookup c10tree.mem_table [1] = some
      { data := [7]
        expires_at := some 3
        created_at := 0
        is_tombstone := false
        transaction_id := none } ∧
      DataValue.isExpired
          { data := [7]
            expires_at := some 3
            created_at := 0
            is_tombstone := false
            transaction_id := none } 9 = true ∧
      ((c10tree.update_ttl 9 [1] (some 100)).1 = false ∧
        (c10tree.update_ttl 9 [1] (some 100)).2.mem_table =
          kmErase c10tree.mem_table [1] ∧
        (c10tree.update_ttl 9 [1] (some 100)).2.immutable_mem_tables =
          c10tree.immutable_mem_tables ∧
        (c10tree.update_ttl 9 [1] (some 100)).2.ss_tables = c10tree.ss_tables ∧
        (c10tree.update_ttl 9 [1] (some 100)).2.wal_writer = c10tree.wal_writer ∧
        (c10tree.update_ttl 9 [1] (some 100)).2.tx_manager = c10tree.tx_manager) :=
  ⟨rfl, by decide,
    c10_update_ttl_expired_removes_entry c10tree 9 [1] (some 100) _ rfl (by decide)⟩

/-! ### C7 -/

theorem kmSize_insert_le {α : Type} (m : KMap α) (k : Key) (v : α) :
    kmSize (kmInsert m k v) ≤ kmSize m + 1 := by
  induction m with
  | nil => simp [kmInsert, kmSize]
  | cons p rest ih =>
    obtain ⟨k', v'⟩ := p
    simp only [kmInsert]
    rcases hc : keyCmp k k' with hlt | heq | hgt
    · simp [kmSize]
    · simp [kmSize]
    · simp only [kmSize, List.length_cons] at ih ⊢
      omega

/-- C7 (amended): for every put, and for every delete of a currently visible
key, with WAL enabled and the active WAL file within `wal_max_size` at the
start of the operation, exactly one WAL record — the operation's own `Put` or
`Delete` record, flushed to the OS — is appended before the memtable is
mutated: the memtable mutation is applied to the state whose WAL already
holds the record, and a flush triggered by the put (with its checkpoint and
rotation) happens only after that mutation, to the already-extended state.
When the WAL append fails, the operation returns the `Wal` error without any
state, in particular with the memtable unchanged.  The `wal_max_size` guard
is needed: past it the code appends a second (checkpoint) record and rewrites
the file (see `c7_size_checkpoint_drops_put_record`). -/
theorem c7_put_delete_wal_contract (t : Tree) (now : Nat) (key : Key)
    (value : List Byte) (ttl : Option Nat) (w : List WalEntry)
    (hwal : t.wal_writer = some w)
    (hsize : wal_file_size t.settings.bincode_encode w ≤ t.settings.wal_max_size) :
    (t.put_to_tree true now key value ttl =
        if kmSize (kmInsert t.mem_table key (DataValue.new now value ttl)) >
            t.settings.mem_table_max_size then
          .ok (Tree.flush_mem_table { t with
            wal_writer :=
              some (w ++ [⟨.put, key, some (DataValue.new now value ttl)⟩])
            mem_table := kmInsert t.mem_table key (DataValue.new now value ttl) })
        else
          .ok { t with
            wal_writer :=
              some (w ++ [⟨.put, key, some (DataValue.new now value ttl)⟩])
            mem_table := kmInsert t.mem_table key (DataValue.new now value ttl) }) ∧
      (t.contains_key now key = true →
        t.delete true now key =
          .ok (true, { t with
            wal_writer := some (w ++ [⟨.delete, key, none⟩])
            mem_table := kmInsert t.mem_table key (DataValue.tombstone now) })) ∧
      t.put_to_tree false now key value ttl = .error .wal ∧
      (t.contains_key now key = true → t.delete false now key = .error .wal) := by
  refine ⟨?_, ?_, ?_, ?_⟩
  · unfold Tree.put_to_tree Tree.write_to_wal
    rw [hwal]
    simp only [if_true]
    rw [if_neg (not_lt.mpr hsize)]
  · intro hvis
    unfold Tree.delete Tree.write_to_wal
    simp only [hvis, if_true]
    rw [hwal]
    simp only [if_true]
    rw [if_neg (not_lt.mpr hsize)]
  · unfold Tree.put_to_tree Tree.write_to_wal
    rw [hwal]
    rfl
  · intro hvis
    unfold Tree.delete Tree.write_to_wal
    simp only [hvis, if_true]
    rw [hwal]
    rfl

/-- A tree holding the live entry `[1] ↦ payload [3]` (so `[1]` is visible to
`delete`) with an empty active WAL segment, for the C7 witness. -/
def c7wtree : Tree :=
  { mem_table := [([1], DataValue.new 0 [3] none)]
    immutable_mem_tables := []
    ss_tables := []
    wal_writer := some []
    settings := sampleSettings
    tx_manager := TransactionManager.new }

/-- Witness for `c7_put_delete_wal_contract` at `c7wtree`, key `[1]` (visible,
so the delete clauses apply; the put overwrites it without triggering a
flush). -/
theorem c7_put_delete_wal_contract_witness :
    c7wtree.wal_writer = some [] ∧
      wal_file_size c7wtree.settings.bincode_encode [] ≤
        c7wtree.settings.wal_max_size ∧
      c7wtree.contains_key 4 [1] = true ∧
      (c7wtree.put_to_tree true 4 [1] [2] none =
        if kmSize (kmInsert c7wtree.mem_table [1] (DataValue.new 4 [2] none)) >
            c7wtree.settings.mem_table_max_size then
          .ok (Tree.flush_mem_table { c7wtree with
            wal_writer := some ([] ++ [⟨.put, [1], some (DataValue.new 4 [2] none)⟩])
            mem_table := kmInsert c7wtree.mem_table [1] (DataValue.new 4 [2] none) })
        else
          .ok { c7wtree with
            wal_writer := some ([] ++ [⟨.put, [1], some (DataValue.new 4 [2] none)⟩])
            mem_table := kmInsert c7wtree.mem_table [1] (DataValue.new 4 [2] none) }) ∧
      (c7wtree.delete true 4 [1] =
        .ok (true, { c7wtree with
          wal_writer := some ([] ++ [⟨.delete, [1], none⟩])
          mem_table := kmInsert c7wtree.mem_table [1] (DataValue.tombstone 4) })) ∧
      c7wtree.put_to_tree false 4 [1] [2] none = .error .wal ∧
      c7wtree.delete false 4 [1] = .error .wal :=
  ⟨rfl, by decide, by decide,
    (c7_put_delete_wal_contract c7wtree 4 [1] [2] none [] rfl (by decide)).1,
    (c7_put_delete_wal_contract c7wtree 4 [1] [2] none [] rfl (by decide)).2.1
      (by decide),
    (c7_put_delete_wal_contract c7wtree 4 [1] [2] none [] rfl (by decide)).2.2.1,
    (c7_put_delete_wal_contract c7wtree 4 [1] [2] none [] rfl (by decide)).2.2.2
      (by decide)⟩

/-- Settings with `wal_max_size = 0`, so any non-empty WAL file triggers the
size-based checkpoint on the next write. -/
def c7settings : TreeSettings :=
  { mem_table_max_size := 10
    wal_max_size := 0
    bincode_encode := fun _ => [] }

/-- A tree whose active WAL already holds one record and exceeds
`wal_max_size`. -/
def c7tree : Tree :=
  { mem_table := []
    immutable_mem_tables := []
    ss_tables := []
    wal_writer := some [{ op := .put, key := [1], value := some (DataValue.new 0 [1] none) }]
    settings := c7settings
    tx_manager := TransactionManager.new }

/-- C7 counterexample: when the WAL file exceeds `wal_max_size`, a single put
appends *two* records (the `Put` and a checkpoint) and then rewrites the file
keeping only post-checkpoint records — so the put's own record is dropped
while the memtable receives the entry: the final state has
`wal_writer = some []` yet the memtable maps `[2]`.  The claimed "exactly one
record" and the claimed unreachability of a memtable entry without its WAL
record both fail. -/
theorem c7_size_checkpoint_drops_put_record :
    (c7tree.put_to_tree true 5 [2] [9] none).map
        (fun t1 => (t1.wal_writer, kmLookup t1.mem_table [2])) =
      .ok (some [], some (DataValue.new 5 [9] none)) := rfl

/-! ### C9 -/

/-- A sequence of puts without TTL (the claim's workload). -/
def put_all (wal_ok : Bool) (now : Nat) :
    Tree → List (Key × List Byte) → Except TreeError Tree
  | t, [] => .ok t
  | t, (key, value) :: rest =>
    match t.put_to_tree wal_ok now key value none with
    | .error e => .error e
    | .ok t1 => put_all wal_ok now t1 rest

/-- A freshly created engine: empty memtable, immutable queue and run list
(`Tree::new_with_settings` before any data; WAL disabled so that the claim's
counts are not entangled with segment rotation). -/
def empty_tree (s : TreeSettings) : Tree :=
  { mem_table := []
    immutable_mem_tables := []
    ss_tables := []
    wal_writer := none
    settings := s
    tx_manager := TransactionManager.new }

theorem flush_mem_table_fields (t : Tree)
    (himm : t.immutable_mem_tables = []) (hss : t.ss_tables = [])
    (hwal : t.wal_writer = none) :
    t.flush_mem_table.mem_table = [] ∧
      t.flush_mem_table.immutable_mem_tables = [] ∧
      t.flush_mem_table.ss_tables = [t.mem_table] ∧
      t.flush_mem_table.wal_writer = none ∧
      t.flush_mem_table.settings = t.settings := by
  unfold Tree.flush_mem_table Tree.compact
  simp [himm, hss, hwal]

theorem put_all_no_flush (now : Nat) :
    ∀ (pairs : List (Key × List Byte)) (t : Tree),
      t.wal_writer = none →
      t.immutable_mem_tables = [] →
      t.ss_tables = [] →
      (∀ p ∈ pairs, kmLookup t.mem_table p.1 = none) →
      (pairs.map Prod.fst).Nodup →
      kmSize t.mem_table + pairs.length ≤ t.settings.mem_table_max_size →
      ∃ t', put_all true now t pairs = .ok t' ∧
        t'.settings = t.settings ∧
        t'.wal_writer = none ∧
        t'.immutable_mem_tables = [] ∧
        t'.ss_tables = [] ∧
        kmSize t'.mem_table = kmSize t.mem_table + pairs.length ∧
        (∀ k, k ∉ pairs.map Prod.fst →
          kmLookup t'.mem_table k = kmLookup t.mem_table k) := by
  intro pairs
  induction pairs with
  | nil =>
    intro t h1 h2 h3 _ _ _
    exact ⟨t, rfl, rfl, h1, h2, h3, by simp, fun k _ => rfl⟩
  | cons p rest ih =>
    intro t h1 h2 h3 h4 h5 h6
    obtain ⟨key, value⟩ := p
    have hfresh : kmLookup t.mem_table key = none := h4 (key, value) (by simp)
    have hsize1 : kmSize (kmInsert t.mem_table key (DataValue.new now value none)) =
        kmSize t.mem_table + 1 := kmSize_insert_fresh _ _ _ hfresh
    have hput : t.put_to_tree true now key value none =
        .ok { t with
          mem_table := kmInsert t.mem_table key (DataValue.new now value none) } := by
      unfold Tree.put_to_tree Tree.write_to_wal
      have hnoflush : ¬ kmSize (kmInsert t.mem_table key (DataValue.new now value none)) >
          t.settings.mem_table_max_size := by
        simp only [kmSize, List.length_cons] at h6 hsize1 ⊢
        omega
      simp [h1, hnoflush]
    simp only [List.map_cons, List.nodup_cons] at h5
    have hkey_not : key ∉ rest.map Prod.fst := h5.1
    obtain ⟨t', hrun, hset, hw, hi, hs, hsz, hframe⟩ :=
      ih { t with mem_table := kmInsert t.mem_table key (DataValue.new now value none) }
        h1 h2 h3
        (by
          intro q hq
          have hne : key ≠ q.1 := by
            intro hcontra
            exact hkey_not (hcontra ▸ List.mem_map_of_mem Prod.fst hq)
          simpa [kmLookup_insert_ne _ _ _ _ hne] using h4 q (List.mem_cons_of_mem _ hq))
        h5.2
        (by
          show kmSize (kmInsert t.mem_table key (DataValue.new now value none)) +
            rest.length ≤ t.settings.mem_table_max_size
          simp only [kmSize, List.length_cons] at h6 hsize1 ⊢
          omega)
    refine ⟨t', ?_, hset, hw, hi, hs, ?_, ?_⟩
    · simp only [put_all, hput]
      exact hrun
    · have hsz1 : kmSize t'.mem_table =
          kmSize (kmInsert t.mem_table key (DataValue.new now value none)) +
            rest.length := hsz
      simp only [List.length_cons]
      omega
    · intro k hk
      simp only [List.map_cons, List.mem_cons] at hk
      push_neg at hk
      rw [hframe k hk.2]
      exact kmLookup_insert_ne _ _ _ _ (fun h => hk.1 h.symm)

theorem put_all_append (wal_ok : Bool) (now : Nat) (a b : List (Key × List Byte)) :
    ∀ t : Tree, put_all wal_ok now t (a ++ b) =
      match put_all wal_ok now t a with
      | .ok t1 => put_all wal_ok now t1 b
      | .error e => .error e := by
  induction a with
  | nil => intro t; rfl
  | cons p rest ih =>
    intro t
    obtain ⟨k, v⟩ := p
    simp only [List.cons_append, put_all]
    cases t.put_to_tree wal_ok now k v none with
    | error e => rfl
    | ok t1 => exact ih t1

/-- C9 (confirmed): starting from an empty engine with memtable threshold `M`,
a workload of distinct-key puts behaves as claimed: with at most `M` puts no
flush happens (run list and immutable queue stay empty and the memtable holds
every entry), and with exactly `M + 1` puts exactly one flush is triggered —
the whole memtable is taken (the final memtable is the fresh empty map), the
immutable queue is drained again by the compaction, and exactly one new
sorted run exists. -/
theorem c9_memtable_overflow_boundary (now : Nat) (s : TreeSettings)
    (pairs : List (Key × List Byte))
    (hnd : (pairs.map Prod.fst).Nodup) :
    (pairs.length ≤ s.mem_table_max_size →
      ∃ t', put_all true now (empty_tree s) pairs = .ok t' ∧
        t'.ss_tables = [] ∧ t'.immutable_mem_tables = [] ∧
        kmSize t'.mem_table = pairs.length) ∧
    (pairs.length = s.mem_table_max_size + 1 →
      ∃ t', put_all true now (empty_tree s) pairs = .ok t' ∧
        t'.ss_tables.length = 1 ∧ t'.immutable_mem_tables = [] ∧
        kmSize t'.mem_table = 0) := by
  constructor
  · intro hlen
    obtain ⟨t', hrun, _, _, hi, hs, hsz, _⟩ :=
      put_all_no_flush now pairs (empty_tree s) rfl rfl rfl
        (fun _ _ => rfl) hnd (by simpa [empty_tree, kmSize] using hlen)
    exact ⟨t', hrun, hs, hi, by simpa [empty_tree, kmSize] using hsz⟩
  · intro hlen
    rcases List.eq_nil_or_concat pairs with hnil | ⟨init, last, rfl⟩
    · subst hnil; simp at hlen
    · obtain ⟨lk, lv⟩ := last
      rw [List.concat_eq_append] at hlen hnd ⊢
      have hlen_init : init.length = s.mem_table_max_size := by
        simp only [List.length_append, List.length_cons, List.length_nil] at hlen
        omega
      have hnd' := hnd
      rw [List.map_append, List.nodup_append] at hnd'
      have hnd_init : (init.map Prod.fst).Nodup := hnd'.1
      have hlk_not : lk ∉ init.map Prod.fst := by
        intro hmem
        exact hnd'.2.2 hmem (by simp)
      obtain ⟨tmid, hrun, hset, hw, hi, hs, hsz, hframe⟩ :=
        put_all_no_flush now init (empty_tree s) rfl rfl rfl
          (fun _ _ => rfl) hnd_init
          (by simp [empty_tree, kmSize, hlen_init])
      have hsz_mid : kmSize tmid.mem_table = s.mem_table_max_size := by
        simpa [empty_tree, kmSize, hlen_init] using hsz
      have hfresh : kmLookup tmid.mem_table lk = none := by
        rw [hframe lk hlk_not]
        rfl
      have hset_mid : tmid.settings.mem_table_max_size = s.mem_table_max_size := by
        rw [hset]
        rfl
      have hfull : kmSize (kmInsert tmid.mem_table lk (DataValue.new now lv none)) >
          tmid.settings.mem_table_max_size := by
        rw [kmSize_insert_fresh _ _ _ hfresh, hsz_mid, hset_mid]
        omega
      have hput : tmid.put_to_tree true now lk lv none =
          .ok (Tree.flush_mem_table { tmid with
            mem_table := kmInsert tmid.mem_table lk (DataValue.new now lv none) }) := by
        unfold Tree.put_to_tree Tree.write_to_wal
        simp [hw, hfull]
      have hflush := flush_mem_table_fields
        { tmid with mem_table := kmInsert tmid.mem_table lk (DataValue.new now lv none) }
        hi hs hw
      refine ⟨Tree.flush_mem_table { tmid with
          mem_table := kmInsert tmid.mem_table lk (DataValue.new now lv none) },
        ?_, ?_, ?_, ?_⟩
      · rw [put_all_append, hrun]
        simp only [put_all, hput]
      · rw [hflush.2.2.1]
        rfl
      · exact hflush.2.1
      · rw [hflush.1]
        rfl

/-- Settings (`mem_table_max_size = 2`) and workloads for the C9 witness. -/
def c9settings : TreeSettings :=
  { mem_table_max_size := 2
    wal_max_size := 1000
    bincode_encode := fun _ => [] }

def c9pairs : List (Key × List Byte) := [([1], [101]), ([2], [102]), ([3], [103])]

def c9pairsSmall : List (Key × List Byte) := [([1], [101]), ([2], [102])]

/-- Witness for `c9_memtable_overflow_boundary`: three distinct puts against
`mem_table_max_size = 2` produce exactly one run, two puts produce none. -/
theorem c9_memtable_overflow_boundary_witness :
    ((c9pairs.map Prod.fst).Nodup ∧
        c9pairs.length = c9settings.mem_table_max_size + 1 ∧
        ∃ t', put_all true 0 (empty_tree c9settings) c9pairs = .ok t' ∧
          t'.ss_tables.length = 1 ∧ t'.immutable_mem_tables = [] ∧
          kmSize t'.mem_table = 0) ∧
      ((c9pairsSmall.map Prod.fst).Nodup ∧
        c9pairsSmall.length ≤ c9settings.mem_table_max_size ∧
        ∃ t', put_all true 0 (empty_tree c9settings) c9pairsSmall = .ok t' ∧
          t'.ss_tables = [] ∧ t'.immutable_mem_tables = [] ∧
          kmSize t'.mem_table = c9pairsSmall.length) :=
  ⟨⟨by decide, by decide,
      (c9_memtable_overflow_boundary 0 c9settings c9pairs (by decide)).2 (by decide)⟩,
    ⟨by decide, by decide,
      (c9_memtable_overflow_boundary 0 c9settings c9pairsSmall (by decide)).1 (by decide)⟩⟩

/-! ### C2 -/

theorem heapPopAux_spec (es : List HeapEntry) : ∀ m : HeapEntry,
    ((heapPopAux m es).1 = m ∨ (heapPopAux m es).1 ∈ es) ∧
      ∀ x ∈ (heapPopAux m es).2, x = m ∨ x ∈ es := by
  induction es with
  | nil => intro m; simp [heapPopAux]
  | cons e es ih =>
    intro m
    simp only [heapPopAux]
    by_cases hc : keyCmp e.key m.key = .lt
    · simp only [if_pos hc]
      obtain ⟨h1, h2⟩ := ih e
      refine ⟨?_, ?_⟩
      · rcases h1 with h | h
        · exact Or.inr (by simp [h])
        · exact Or.inr (by simp [h])
      · intro x hx
        rcases List.mem_cons.mp hx with rfl | hx
        · exact Or.inl rfl
        · rcases h2 x hx with rfl | h
          · exact Or.inr (by simp)
          · exact Or.inr (by simp [h])
    · simp only [if_neg hc]
      obtain ⟨h1, h2⟩ := ih m
      refine ⟨?_, ?_⟩
      · rcases h1 with h | h
        · exact Or.inl h
        · exact Or.inr (by simp [h])
      · intro x hx
        rcases List.mem_cons.mp hx with rfl | hx
        · exact Or.inr (by simp)
        · rcases h2 x hx with rfl | h
          · exact Or.inl rfl
          · exact Or.inr (by simp [h])

theorem heapPop_spec (heap : List HeapEntry) (entry : HeapEntry)
    (heap1 : List HeapEntry) (h : heapPop heap = some (entry, heap1)) :
    entry ∈ heap ∧ ∀ x ∈ heap1, x ∈ heap := by
  cases heap with
  | nil => cases h
  | cons e es =>
    simp only [heapPop, Option.some.injEq] at h
    obtain ⟨hs1, hs2⟩ := heapPopAux_spec es e
    rw [h] at hs1 hs2
    constructor
    · rcases hs1 with h1 | h1
      · exact List.mem_cons.mpr (Or.inl h1)
      · exact List.mem_cons.mpr (Or.inr h1)
    · intro x hx
      rcases hs2 x hx with rfl | h1
      · exact List.mem_cons_self _ _
      · exact List.mem_cons_of_mem _ h1

theorem advanceIter_sound (P : Key × DataValue → Prop)
    (iterators : List (List (Key × DataValue))) (heap : List HeapEntry) (i : Nat)
    (hit : ∀ l ∈ iterators, ∀ p ∈ l, P p)
    (hh : ∀ e ∈ heap, P (e.key, e.value)) :
    (∀ l ∈ (advanceIter iterators heap i).1, ∀ p ∈ l, P p) ∧
      ∀ e ∈ (advanceIter iterators heap i).2, P (e.key, e.value) := by
  unfold advanceIter
  cases hg : iterators[i]? with
  | none => exact ⟨hit, hh⟩
  | some l =>
    have hl_mem : l ∈ iterators := List.getElem?_mem hg
    cases l with
    | nil => exact ⟨hit, hh⟩
    | cons q rest =>
      obtain ⟨nk, nv⟩ := q
      constructor
      · intro l' hl'
        rcases List.mem_or_eq_of_mem_set hl' with h | rfl
        · exact hit l' h
        · intro p hp
          exact hit _ hl_mem p (List.mem_cons_of_mem _ hp)
      · intro e he
        rcases List.mem_cons.mp he with rfl | he
        · exact hit _ hl_mem (nk, nv) (by simp)
        · exact hh e he

theorem mergeLoop_sound (P : Key × DataValue → Prop) :
    ∀ (fuel : Nat) (iterators : List (List (Key × DataValue)))
      (heap : List HeapEntry) (last_key : Option Key) (merged : KMap DataValue),
      (∀ l ∈ iterators, ∀ p ∈ l, P p) →
      (∀ e ∈ heap, P (e.key, e.value)) →
      (∀ p ∈ merged,
        P p ∧ p.2.is_tombstone = false ∧ p.2.isEmptyData = false) →
      ∀ p ∈ mergeLoop fuel iterators heap last_key merged,
        P p ∧ p.2.is_tombstone = false ∧ p.2.isEmptyData = false := by
  intro fuel
  induction fuel with
  | zero => intro _ _ _ merged _ _ hm; exact hm
  | succ n ih =>
    intro iterators heap last_key merged hit hh hm
    simp only [mergeLoop]
    cases hp : heapPop heap with
    | none => exact hm
    | some r =>
      obtain ⟨entry, heap1⟩ := r
      obtain ⟨hentry, hheap1⟩ := heapPop_spec heap entry heap1 hp
      have hh1 : ∀ e ∈ heap1, P (e.key, e.value) := fun e he => hh e (hheap1 e he)
      by_cases hskip : (entry.value.isEmptyData || entry.value.is_tombstone) = true
      · simp only [hskip, if_true]
        exact ih iterators heap1 last_key merged hit hh1 hm
      · simp only [hskip]
        have hadv := advanceIter_sound P iterators heap1 entry.table_index hit hh1
        by_cases hdup : last_key = some entry.key
        · simp only [if_pos hdup]
          exact ih _ _ last_key merged hadv.1 hadv.2 hm
        · simp only [if_neg hdup]
          refine ih _ _ (some entry.key) (kmInsert merged entry.key entry.value)
            hadv.1 hadv.2 ?_
          intro p hpm
          rcases kmMem_insert merged entry.key entry.value p hpm with rfl | hpm
          · simp only [Bool.or_eq_true, not_or] at hskip
            exact ⟨hh entry hentry,
              by simpa using hskip.2, by simpa using hskip.1⟩
          · exact hm p hpm

theorem initMergeState_sound (tables : List (KMap DataValue)) :
    (∀ l ∈ (initMergeState tables).1, ∀ p ∈ l, ∃ tbl ∈ tables, p ∈ tbl) ∧
      ∀ e ∈ (initMergeState tables).2, ∃ tbl ∈ tables, (e.key, e.value) ∈ tbl := by
  have main : ∀ (xs : List (Nat × KMap DataValue))
      (acc : List (List (Key × DataValue)) × List HeapEntry),
      (∀ x ∈ xs, x.2 ∈ tables) →
      (∀ l ∈ acc.1, ∀ p ∈ l, ∃ tbl ∈ tables, p ∈ tbl) →
      (∀ e ∈ acc.2, ∃ tbl ∈ tables, (e.key, e.value) ∈ tbl) →
      (∀ l ∈ (xs.foldl (fun acc p =>
          match p.2 with
          | [] => (acc.1 ++ [[]], acc.2)
          | (key, value) :: rest =>
            (acc.1 ++ [rest], ⟨key, value, p.1⟩ :: acc.2)) acc).1,
          ∀ p ∈ l, ∃ tbl ∈ tables, p ∈ tbl) ∧
        ∀ e ∈ (xs.foldl (fun acc p =>
          match p.2 with
          | [] => (acc.1 ++ [[]], acc.2)
          | (key, value) :: rest =>
            (acc.1 ++ [rest], ⟨key, value, p.1⟩ :: acc.2)) acc).2,
          ∃ tbl ∈ tables, (e.key, e.value) ∈ tbl := by
    intro xs
    induction xs with
    | nil => intro acc _ h1 h2; exact ⟨h1, h2⟩
    | cons x rest ih =>
      intro acc hx h1 h2
      obtain ⟨i, tbl⟩ := x
      have htbl : tbl ∈ tables := hx (i, tbl) (by simp)
      cases tbl with
      | nil =>
        refine ih _ (fun y hy => hx y (List.mem_cons_of_mem _ hy)) ?_ h2
        intro l hl
        rcases List.mem_append.mp hl with h | h
        · exact h1 l h
        · intro p hp
          simp at h
          simp [h] at hp
      | cons q qrest =>
        obtain ⟨qk, qv⟩ := q
        refine ih _ (fun y hy => hx y (List.mem_cons_of_mem _ hy)) ?_ ?_
        · intro l hl
          rcases List.mem_append.mp hl with h | h
          · exact h1 l h
          · intro p hp
            simp only [List.mem_singleton] at h
            subst h
            exact ⟨_, htbl, List.mem_cons_of_mem _ hp⟩
        · intro e he
          rcases List.mem_cons.mp he with rfl | he
          · exact ⟨_, htbl, by simp⟩
          · exact h2 e he
  unfold initMergeState
  exact main tables.enum ([], [])
    (fun x hx => List.getElem?_mem (List.mem_enum_iff_getElem?.mp hx))
    (by simp) (by simp)

/-- C2 (amended): every record in the run produced by a merge is a
non-tombstone record with non-empty payload taken verbatim from one of the
merged input runs (the output is a map, hence one record per key at most).
The merge does *not* guarantee that the most-recent live record of every key
survives: popping a tombstone stalls that input's iterator (see
`c2_merge_drops_live_record_after_tombstone`), a newer tombstone does not
suppress older live values of its key, and expired records are not filtered. -/
theorem c2_merge_output_sound (tables : List (KMap DataValue)) (k : Key)
    (v : DataValue) (h : kmLookup (merge_tables tables) k = some v) :
    v.is_tombstone = false ∧ v.isEmptyData = false ∧
      ∃ tbl ∈ tables, (k, v) ∈ tbl := by
  have hmem := kmLookup_mem _ _ _ h
  have hinit := initMergeState_sound tables
  have hres := mergeLoop_sound (fun p => ∃ tbl ∈ tables, p ∈ tbl)
    (merge_fuel tables) (initMergeState tables).1 (initMergeState tables).2
    none [] hinit.1 hinit.2 (by simp) (k, v) hmem
  exact ⟨hres.2.1, hres.2.2, hres.1⟩

/-- The oldest run of the C2 counterexample: the single live record
`[2] ↦ payload [66]`. -/
def c2t0 : KMap DataValue := [([2], DataValue.new 0 [66] none)]

/-- The newer run of the C2 counterexample: a tombstone for `[1]` followed by
the live record `[3] ↦ payload [67]`. -/
def c2t1 : KMap DataValue :=
  [([1], DataValue.tombstone 0), ([3], DataValue.new 0 [67] none)]

/-- C2 counterexample: merging `[c2t0, c2t1]` must, per the claim, output the
most-recent live record of every key — `[2]` and `[3]` (the tombstone for
`[1]` is dropped).  The code instead outputs only `[2]`: after popping the
tombstone the loop `continue`s without advancing that table's iterator, so the
live record for `[3]` is silently lost. -/
theorem c2_merge_drops_live_record_after_tombstone :
    kmLookup c2t1 [3] = some (DataValue.new 0 [67] none) ∧
      (DataValue.new 0 [67] none).is_tombstone = false ∧
      (DataValue.new 0 [67] none).isEmptyData = false ∧
      merge_tables [c2t0, c2t1] = [([2], DataValue.new 0 [66] none)] ∧
      kmLookup (merge_tables [c2t0, c2t1]) [3] = none := by
  refine ⟨rfl, rfl, rfl, ?_, ?_⟩ <;> rfl

/-- Witness for `c2_merge_output_sound` at the concrete merge of
`[c2t0, c2t1]` and its surviving record `[2] ↦ payload [66]`. -/
theorem c2_merge_output_sound_witness :
    kmLookup (merge_tables [c2t0, c2t1]) [2] = some (DataValue.new 0 [66] none) ∧
      ((DataValue.new 0 [66] none).is_tombstone = false ∧
        (DataValue.new 0 [66] none).isEmptyData = false ∧
        ∃ tbl ∈ [c2t0, c2t1], ([2], DataValue.new 0 [66] none) ∈ tbl) :=
  ⟨rfl, c2_merge_output_sound [c2t0, c2t1] [2] (DataValue.new 0 [66] none) rfl⟩

/-! ### C3 -/

theorem hLookup_mem {κ α : Type} [DecidableEq κ] (m : List (κ × α)) (k : κ)
    (v : α) (h : hLookup m k = some v) : (k, v) ∈ m := by
  induction m with
  | nil => simp [hLookup] at h
  | cons p rest ih =>
    obtain ⟨k', v'⟩ := p
    simp only [hLookup] at h
    by_cases hk : k' = k
    · subst hk
      rw [if_pos rfl] at h
      injection h with h
      exact List.mem_cons.mpr (Or.inl (by rw [h]))
    · simp only [if_neg hk] at h
      exact List.mem_cons_of_mem _ (ih h)

/-- The write–write scenario of the C3 counterexample: from an empty engine,
begin two transactions, have each write the same key `[5]` (T1 the payload
`[1]`, T2 the payload `[2]`), then commit T1 and afterwards T2; the pair of
commit outcomes is returned. -/
def c3run : Except TreeError (Except TreeError Unit × Except TreeError Unit) :=
  let t0 := empty_tree sampleSettings
  let t1 := (t0.begin_transaction).2
  let t2 := (t1.begin_transaction).2
  match t2.put_tx 10 1 [5] [1] none with
  | .error e => .error e
  | .ok t3 =>
    match t3.put_tx 11 2 [5] [2] none with
    | .error e => .error e
    | .ok t4 =>
      let r1 := t4.commit_transaction true 20 1
      let r2 := r1.2.commit_transaction true 30 2
      .ok (r1.1, r2.1)

/-- C3 counterexample: both transactions wrote the key `[5]` before
committing, yet *both* commits succeed — conflict validation inspects only
the read set, and `put_tx` records nothing in the read set, so write–write
conflicts go undetected and the later committer is not aborted. -/
theorem c3_write_write_both_commit : c3run = .ok (.ok (), .ok ()) := rfl

/-- C3 (amended): a conflict is detected exactly through the read set: if the
later committer holds a read-set entry for a key whose current version stamp
has meanwhile advanced past the observed one (as happens when the other
transaction's commit bumped it), its commit returns the `Transaction` error
and the transaction is rolled back (removed from the active set). -/
theorem c3_commit_conflict_aborts (t : Tree) (wal_ok : Bool) (now tx_id : Nat)
    (tx_context : TransactionContext) (k : Key) (rv cv : VersionStamp)
    (hnd : (t.tx_manager.active_transactions.map Prod.fst).Nodup)
    (hactive : hLookup t.tx_manager.active_transactions tx_id = some tx_context)
    (hread : hLookup tx_context.read_set k = some rv)
    (hkv : hLookup t.tx_manager.key_versions k = some cv)
    (hstale : rv.version < cv.version) :
    (t.commit_transaction wal_ok now tx_id).1 = .error .transaction ∧
      hLookup (t.commit_transaction wal_ok now tx_id).2.tx_manager.active_transactions
        tx_id = none := by
  have hval : t.tx_manager.validate_transaction tx_id = .ok false := by
    unfold TransactionManager.validate_transaction
    simp only [hactive]
    congr 1
    rw [List.all_eq_false]
    refine ⟨(k, rv), hLookup_mem _ _ _ hread, ?_⟩
    simp only [hkv]
    rw [if_pos hstale]
    simp
  unfold Tree.commit_transaction
  rw [hval]
  exact ⟨rfl, hLookup_erase_self _ _ hnd⟩

/-- The C3 witness scenario: pre-put `[5] ↦ [0]`, begin T1 and T2, both read
`[5]` through `get_tx` (recording the zero/epoch stamp), both write `[5]`,
then T1 commits (bumping the version stamp of `[5]`); the resulting state is
returned. -/
def c3wrun : Except TreeError Tree :=
  let t0 := empty_tree sampleSettings
  match t0.put_to_tree true 0 [5] [0] none with
  | .error e => .error e
  | .ok t1 =>
    let t2 := (t1.begin_transaction).2
    let t3 := (t2.begin_transaction).2
    match t3.get_tx 5 1 [5] with
    | .error e => .error e
    | .ok r4 =>
      match r4.2.get_tx 6 2 [5] with
      | .error e => .error e
      | .ok r5 =>
        match r5.2.put_tx 7 1 [5] [1] none with
        | .error e => .error e
        | .ok t6 =>
          match t6.put_tx 8 2 [5] [2] none with
          | .error e => .error e
          | .ok t7 => .ok (t7.commit_transaction true 20 1).2

/-- The state after the C3 witness scenario (total by construction; the
default is never taken). -/
def c3wtree : Tree :=
  match c3wrun with
  | .ok t => t
  | .error _ => empty_tree sampleSettings

/-- T2's context in `c3wtree`: it observed the zero/epoch stamp for `[5]` and
wrote `[5]`. -/
def c3wctx : TransactionContext :=
  { read_set := [([5], ⟨0, 0⟩)]
    write_set := [([5], DataValue.new 8 [2] none)]
    validation_set := [[5]]
    status := .active }

/-- Witness for `c3_commit_conflict_aborts` at `c3wtree`: after T1's commit,
T2's commit fails with the `Transaction` error and T2 is removed. -/
theorem c3_commit_conflict_aborts_witness :
    ((c3wtree.tx_manager.active_transactions.map Prod.fst).Nodup ∧
        hLookup c3wtree.tx_manager.active_transactions 2 = some c3wctx ∧
        hLookup c3wctx.read_set [5] = some ⟨0, 0⟩ ∧
        hLookup c3wtree.tx_manager.key_versions [5] = some ⟨2, 20⟩ ∧
        (⟨0, 0⟩ : VersionStamp).version < (⟨2, 20⟩ : VersionStamp).version) ∧
      ((c3wtree.commit_transaction true 30 2).1 = .error .transaction ∧
        hLookup (c3wtree.commit_transaction true 30 2).2.tx_manager.active_transactions
          2 = none) :=
  ⟨⟨by decide, rfl, rfl, rfl, by decide⟩,
    c3_commit_conflict_aborts c3wtree true 30 2 c3wctx [5] ⟨0, 0⟩ ⟨2, 20⟩
      (by decide) rfl rfl rfl (by decide)⟩

end Redish
